import Mathlib

/-!
Verification of the `ced` terminal text editor (src/main.c) against its
natural-language specification.

The editor state is shallowly embedded: the C globals
`editor.text[MAX_LINES][MAX_COLS]` together with `editor.num_lines`
represent an ordered sequence of `num_lines` text lines (rows at index
`>= num_lines` are never read before being overwritten), so the buffer is
modelled as a `List (List Char)` whose length is the line count.  Machine
`int` fields that are non-negative in every reachable state (cursor and
viewport coordinates, stack tops) are modelled as `Nat`.  The two history
stacks (C arrays with a top index) are modelled as lists with the head as
the top of the stack.
-/

namespace Ced

/-- `#define MAX_LINES 1000` in src/main.c. -/
def MAX_LINES : Nat := 1000

/-- `#define MAX_COLS 1024` in src/main.c; a line holds at most `MAX_COLS - 1` characters. -/
def MAX_COLS : Nat := 1024

/-- `#define UNDO_STACK_SIZE 100` in src/main.c. -/
def UNDO_STACK_SIZE : Nat := 100

/-- The `Config` struct: `tab_four_spaces` and `auto_indent` flags. -/
structure Config where
  tab_four_spaces : Bool
  auto_indent : Bool
deriving Repr, DecidableEq

/-- The `Editor` struct of src/main.c: `text` plus `num_lines` becomes a list of
lines (`text.length` is `num_lines`); `cursor_x`, `cursor_y`, `row_offset` and
`col_offset` are the cursor column, cursor line and viewport origin. -/
structure Editor where
  text : List (List Char)
  cursorX : Nat
  cursorY : Nat
  rowOffset : Nat
  colOffset : Nat
deriving Repr, DecidableEq

/-- `editor.text[i]` (rows past `num_lines` read as empty, matching the zeroed array). -/
def Editor.line (e : Editor) (i : Nat) : List Char := e.text.getD i []

/-- `editor.text[editor.cursor_y]`, the line under the cursor. -/
def Editor.curLine (e : Editor) : List Char := e.line e.cursorY

/-- `init_editor()`: one empty line, cursor and viewport at the origin. -/
def init_editor : Editor :=
  { text := [[]], cursorX := 0, cursorY := 0, rowOffset := 0, colOffset := 0 }

/-- `editor_insert_char(ch)` from src/main.c: a no-op when the line already holds
`MAX_COLS - 1` characters, otherwise the shift loop inserts `ch` at the cursor
column and the cursor advances. -/
def editor_insert_char (ch : Char) (e : Editor) : Editor :=
  let l := e.curLine
  if l.length ≥ MAX_COLS - 1 then e
  else
    { e with
      text := e.text.set e.cursorY (l.take e.cursorX ++ [ch] ++ l.drop e.cursorX)
      cursorX := e.cursorX + 1 }

/-- `editor_delete_char()` from src/main.c (backspace semantics).  At column 0 on
line 0 it is a no-op; at column 0 further down it appends the current line to the
previous line with `strcat` (note: the C code performs no truncation), shifts the
following lines up, and puts the cursor at the end of the old previous line;
otherwise the shift loop removes the character left of the cursor. -/
def editor_delete_char (e : Editor) : Editor :=
  if e.cursorX = 0 then
    if e.cursorY = 0 then e
    else
      let prev := e.line (e.cursorY - 1)
      let merged := prev ++ e.curLine
      { e with
        text := (e.text.set (e.cursorY - 1) merged).eraseIdx e.cursorY
        cursorY := e.cursorY - 1
        cursorX := prev.length }
  else
    let l := e.curLine
    { e with
      text := e.text.set e.cursorY (l.take (e.cursorX - 1) ++ l.drop e.cursorX)
      cursorX := e.cursorX - 1 }

/-- `editor_delete_at_cursor()` from src/main.c (forward-delete semantics): at
end of line it joins the next line into the current one (no-op on the last
line), otherwise it removes the character under the cursor. -/
def editor_delete_at_cursor (e : Editor) : Editor :=
  let l := e.curLine
  if e.cursorX = l.length then
    if e.cursorY = e.text.length - 1 then e
    else
      { e with
        text := (e.text.set e.cursorY (l ++ e.line (e.cursorY + 1))).eraseIdx (e.cursorY + 1) }
  else
    { e with
      text := e.text.set e.cursorY (l.take e.cursorX ++ l.drop (e.cursorX + 1)) }

/-- The indent scan of `editor_insert_newline`: counts the run of leading
spaces (`while (line[indent] == ' ' ...)` on the already-truncated line). -/
def countLeadingSpaces (l : List Char) : Nat := (l.takeWhile (fun c => c == ' ')).length

/-- `editor_insert_newline()` from src/main.c: no-op at `MAX_LINES`; otherwise
splits the cursor line at the cursor column, inserting the remainder as a new
line below; with `auto_indent` the new line is prefixed with the old line's
leading spaces and the remainder is appended via `strncat` bounded by
`MAX_COLS - indent - 1`. -/
def editor_insert_newline (cfg : Config) (e : Editor) : Editor :=
  if e.text.length ≥ MAX_LINES then e
  else
    let l := e.curLine
    let remainder := l.drop e.cursorX
    let head := l.take e.cursorX
    if cfg.auto_indent then
      let indent := countLeadingSpaces head
      let newLine := List.replicate indent ' ' ++ remainder.take (MAX_COLS - 1 - indent)
      { e with
        text := (e.text.set e.cursorY head).insertIdx (e.cursorY + 1) newLine
        cursorX := indent
        cursorY := e.cursorY + 1 }
    else
      { e with
        text := (e.text.set e.cursorY head).insertIdx (e.cursorY + 1) remainder
        cursorX := 0
        cursorY := e.cursorY + 1 }

/-- The global editor/history state of src/main.c: the `editor` plus the
`undo_stack`/`redo_stack` arrays with their top indices (head = top). -/
structure Sys where
  editor : Editor
  undo_stack : List Editor
  redo_stack : List Editor
deriving Repr, DecidableEq

/-- `save_state_undo()` from src/main.c: pushes a full copy of the editor state
onto the undo stack when `undo_stack_top < UNDO_STACK_SIZE` (the push is
silently dropped when the stack is full) and unconditionally resets
`redo_stack_top` to 0. -/
def save_state_undo (s : Sys) : Sys :=
  { s with
    undo_stack :=
      if s.undo_stack.length < UNDO_STACK_SIZE then s.editor :: s.undo_stack
      else s.undo_stack
    redo_stack := [] }

/-- `undo()` from src/main.c: no-op on an empty undo stack; otherwise pops the
top entry, pushes the current editor state onto the redo stack when it has
room, and installs the popped entry. -/
def undo (s : Sys) : Sys :=
  match s.undo_stack with
  | [] => s
  | st :: rest =>
    { editor := st
      undo_stack := rest
      redo_stack :=
        if s.redo_stack.length < UNDO_STACK_SIZE then s.editor :: s.redo_stack
        else s.redo_stack }

/-- `redo()` from src/main.c: symmetric to `undo`. -/
def redo (s : Sys) : Sys :=
  match s.redo_stack with
  | [] => s
  | st :: rest =>
    { editor := st
      redo_stack := rest
      undo_stack :=
        if s.undo_stack.length < UNDO_STACK_SIZE then s.editor :: s.undo_stack
        else s.undo_stack }

/-- A mutation of the editor alone (an edit operation body, or cursor motion):
the history stacks are untouched. -/
def applyMut (m : Editor → Editor) (s : Sys) : Sys := { s with editor := m s.editor }

/-- `editor_kill_line()` from src/main.c.  With a single line and the cursor on
line 0 it merely clears that line — without calling `save_state_undo` — and
returns; otherwise it snapshots, removes the cursor line, clamps the cursor
line to the new last line, and resets the cursor column. -/
def editor_kill_line (s : Sys) : Sys :=
  let e := s.editor
  if e.text.length = 1 ∧ e.cursorY = 0 then
    { s with editor := { e with text := e.text.set 0 [], cursorX := 0 } }
  else
    let s2 := save_state_undo s
    let e2 := s2.editor
    let text2 := e2.text.eraseIdx e2.cursorY
    let cy := if e2.cursorY ≥ text2.length then text2.length - 1 else e2.cursorY
    { s2 with editor := { e2 with text := text2, cursorY := cy, cursorX := 0 } }

/-- `editor_duplicate_line()` from src/main.c: no-op at `MAX_LINES`; otherwise
snapshots and inserts a copy of the cursor line directly below it. -/
def editor_duplicate_line (s : Sys) : Sys :=
  let e := s.editor
  if e.text.length ≥ MAX_LINES then s
  else
    let s2 := save_state_undo s
    let e2 := s2.editor
    { s2 with
      editor := { e2 with
        text := e2.text.insertIdx (e2.cursorY + 1) e2.curLine
        cursorY := e2.cursorY + 1 } }

/-- The destructive key events of `process_keypress` (src/main.c): printable
character insertion, backspace (`KEY_BACKSPACE`/127), forward delete
(`KEY_DC`), newline, kill-line (Ctrl+K), duplicate-line (Ctrl+D) and tab. -/
inductive Key where
  | insertKey (c : Char)
  | backspaceKey
  | deleteKey
  | newlineKey
  | killKey
  | dupKey
  | tabKey
deriving Repr, DecidableEq

/-- The corresponding cases of `process_keypress` (src/main.c): insert,
backspace, delete, newline and tab call `save_state_undo()` and then the
mutation; kill-line and duplicate-line manage the snapshot internally. -/
def process_key (cfg : Config) (k : Key) (s : Sys) : Sys :=
  match k with
  | .insertKey c => applyMut (editor_insert_char c) (save_state_undo s)
  | .backspaceKey => applyMut editor_delete_char (save_state_undo s)
  | .deleteKey => applyMut editor_delete_at_cursor (save_state_undo s)
  | .newlineKey => applyMut (editor_insert_newline cfg) (save_state_undo s)
  | .tabKey =>
    if cfg.tab_four_spaces then
      applyMut (fun e =>
        editor_insert_char ' ' (editor_insert_char ' '
          (editor_insert_char ' ' (editor_insert_char ' ' e)))) (save_state_undo s)
    else
      applyMut (editor_insert_char '\t') (save_state_undo s)
  | .killKey => editor_kill_line s
  | .dupKey => editor_duplicate_line s

/-- `is_word_char(c)` from src/main.c: `isalnum(c) || c == '_'`. -/
def is_word_char (c : Char) : Bool := c.isAlphanum || c == '_'

/-- `is_left_boundary(line, start)` from src/main.c: position 0, or the
character before `start` is not a word character. -/
def is_left_boundary (l : List Char) (start : Nat) : Bool :=
  if start = 0 then true else !is_word_char (l.getD (start - 1) ' ')

/-- `is_right_boundary(line, end)` from src/main.c: `end` at the terminating
NUL (the end of the line), or the character at `end` is not a word character. -/
def is_right_boundary (l : List Char) (e : Nat) : Bool :=
  if e ≥ l.length then true else !is_word_char (l.getD e ' ')

/-- The token test of `draw_line` (src/main.c): a rule token matches at
position `j` when it is non-empty, fits inside the line
(`j + token_len <= len`), the characters agree (`strncmp`), and both
`is_left_boundary(line, j)` and `is_right_boundary(line, j + token_len)`
hold. -/
def tokenMatchAt (l tok : List Char) (j : Nat) : Bool :=
  decide (0 < tok.length) && decide (j + tok.length ≤ l.length) &&
    ((l.drop j).take tok.length == tok) &&
    is_left_boundary l j && is_right_boundary l (j + tok.length)

/-- One `fgets(line_buffer, MAX_COLS, fp)` call modelled on the remaining byte
stream: reads up to `fuel` characters (`MAX_COLS - 1` at the call site),
stopping after a newline; returns the chunk read and the rest of the stream. -/
def readChunk : Nat → List Char → List Char × List Char
  | _, [] => ([], [])
  | 0, cs => ([], cs)
  | fuel + 1, c :: cs =>
    if c = '\n' then ([c], cs)
    else
      let p := readChunk fuel cs
      (c :: p.1, p.2)

/-- The per-line post-processing of `editor_load_file`: strip one trailing
newline, then `strncpy(..., MAX_COLS - 1)` truncates to `MAX_COLS - 1`. -/
def stripTrailNl (l : List Char) : List Char :=
  (if l.getLast? = some '\n' then l.dropLast else l).take (MAX_COLS - 1)

/-- The read loop of `editor_load_file` (src/main.c): while `fgets` succeeds
and fewer than `MAX_LINES` lines are stored, store the chunk with its trailing
newline stripped.  `fuel` is the number of free line slots (`MAX_LINES` at the
call site). -/
def loadLines : Nat → List Char → List (List Char)
  | 0, _ => []
  | fuel + 1, cs =>
    if cs = [] then []
    else
      let p := readChunk (MAX_COLS - 1) cs
      stripTrailNl p.1 :: loadLines fuel p.2

/-- `editor_load_file` after a successful open, restricted to the buffer it
produces: the lines read from the byte stream, or a single empty line when the
file yielded none. -/
def loadFileLines (content : List Char) : List (List Char) :=
  let r := loadLines MAX_LINES content
  if r = [] then [[]] else r

/-- The write loop of `editor_save_file` (src/main.c):
`fprintf(fp, "%s\n", editor.text[i])` for each of the `num_lines` lines. -/
def saveContent (lines : List (List Char)) : List Char :=
  lines.foldr (fun l acc => l ++ '\n' :: acc) []

/-- Loading a byte stream into a fresh buffer and saving it again (the claim's
round trip, with no edits in between). -/
def editorRoundTrip (content : List Char) : List Char :=
  saveContent (loadFileLines content)

/-- A file's content from its list of lines when the file does not end in a
newline: newlines between lines only. -/
def joinNoTerm : List (List Char) → List Char
  | [] => []
  | [l] => l
  | l :: ls => l ++ '\n' :: joinNoTerm ls

/-- A file's content reconstructed from its list of lines: every line followed
by a newline when `term = true` (newline-terminated file), newlines only
between lines when `term = false` (no final newline). -/
def joinLines (ls : List (List Char)) : Bool → List Char
  | true => saveContent ls
  | false => joinNoTerm ls

/-- The effect on one `line_dirty` flag of drawing screen row `lineIdx` in
`editor_refresh_screen` (src/main.c): inside the buffer
(`line_idx < num_lines`) the flag is cleared after the row is drawn; rows past
the buffer are blanked without touching any flag. -/
def clearRow (numLines : Nat) (d : Nat → Bool) (lineIdx : Nat) : Nat → Bool :=
  fun j => if j = lineIdx ∧ lineIdx < numLines then false else d j

/-- The redraw loop of `editor_refresh_screen` (src/main.c): screen rows
`0 .. textAreaRows - 1` backed by line indices `row_offset + i` are processed
in order, clearing the dirty flag of each drawn line. -/
def refreshPass (rowOffset numLines : Nat) : Nat → (Nat → Bool) → Nat → Bool
  | 0, d => d
  | n + 1, d => clearRow numLines (refreshPass rowOffset numLines n d) (rowOffset + n)

/-- `strstr(start, oldstr)` on char lists: the index of the first occurrence of
`pat`, if any. -/
def strstr (hay pat : List Char) : Option Nat :=
  (List.range (hay.length + 1)).find? (fun i => (hay.drop i).take pat.length == pat)

/-- The replacement loop body of `editor_replace_all` (src/main.c): repeatedly
copy the segment before the next occurrence of `oldstr`, emit `newstr`, and
continue after the occurrence; when no occurrence remains, copy the rest.
`fuel` bounds the iteration (the loop advances by at least one character per
occurrence since `oldstr` is non-empty at this point). -/
def replaceGo (oldstr newstr : List Char) : Nat → List Char → List Char
  | 0, start => start
  | fuel + 1, start =>
    match strstr start oldstr with
    | none => start
    | some pos =>
      start.take pos ++ newstr ++ replaceGo oldstr newstr fuel (start.drop (pos + oldstr.length))

/-- One line of `editor_replace_all`: all occurrences replaced, the result
truncated by the final `strncpy(line, buffer, MAX_COLS - 1)`. -/
def replaceLine (oldstr newstr l : List Char) : List Char :=
  (replaceGo oldstr newstr (l.length + 1) l).take (MAX_COLS - 1)

/-- `editor_replace_all()` (src/main.c) as a function of the two prompted
strings: when the prompt for the old text returns the empty string
(cancellation) it returns at once; otherwise every buffer line is rewritten. -/
def editor_replace_all (oldstr newstr : List Char) (e : Editor) : Editor :=
  if oldstr = [] then e
  else { e with text := e.text.map (replaceLine oldstr newstr) }

/-- The LineBuffer invariant of the specification: at least one line, the
cursor line inside the buffer, and the cursor column at most the current
line's length. -/
def Editor.wf (e : Editor) : Prop :=
  1 ≤ e.text.length ∧ e.cursorY < e.text.length ∧ e.cursorX ≤ e.curLine.length

/-- The insert/delete edit operations quantified over by the cursor-invariant
claim: character insertion, backspace deletion and forward deletion. -/
inductive EditOp where
  | insertOp (c : Char)
  | backspaceOp
  | deleteOp
deriving Repr, DecidableEq

/-- Apply one edit operation to the editor. -/
def applyEdit : EditOp → Editor → Editor
  | .insertOp c => editor_insert_char c
  | .backspaceOp => editor_delete_char
  | .deleteOp => editor_delete_at_cursor

/-- Apply a sequence of edit operations in order. -/
def runEdits (ops : List EditOp) (e : Editor) : Editor :=
  ops.foldl (fun e op => applyEdit op e) e

/-- The states of the editor/history system reachable from a start state with
both stacks empty, under editor-only mutations (edit bodies and cursor
motion), `save_state_undo`, `undo` and `redo`. -/
inductive Reachable : Sys → Prop where
  | start (e : Editor) : Reachable ⟨e, [], []⟩
  | mutate {s : Sys} (m : Editor → Editor) : Reachable s → Reachable (applyMut m s)
  | snap {s : Sys} : Reachable s → Reachable (save_state_undo s)
  | undoStep {s : Sys} : Reachable s → Reachable (undo s)
  | redoStep {s : Sys} : Reachable s → Reachable (redo s)

/-- An empty-buffer editor state, used as stack filler in counterexamples. -/
def eEmpty : Editor := ⟨[[]], 0, 0, 0, 0⟩

/-- An editor state holding the single line `"x"`, distinct from `eEmpty`. -/
def eX : Editor := ⟨[['x']], 1, 0, 0, 0⟩

/-- A system state whose undo stack is already full (100 entries of `eEmpty`)
while the live editor state is `eX`. -/
def sUndoFull : Sys := ⟨eX, List.replicate UNDO_STACK_SIZE eEmpty, []⟩

/-- A one-line buffer holding `"abc"` with empty history stacks, the input on
which kill-line skips its snapshot. -/
def sOneLine : Sys := ⟨⟨[['a', 'b', 'c']], 0, 0, 0, 0⟩, [], []⟩

/-- A buffer whose first line already has the maximal `MAX_COLS - 1`
characters followed by a non-empty second line, with the cursor at the start
of the second line: the backspace merge input the truncation claim is about. -/
def eMergeFull : Editor := ⟨[List.replicate (MAX_COLS - 1) 'a', ['b']], 0, 1, 0, 0⟩

/-- A file consisting of one line of `MAX_COLS - 1` characters, terminated by
a newline.  Its single line has exactly the editor's maximum line length. -/
def fullLineFile : List Char := List.replicate (MAX_COLS - 1) 'a' ++ ['\n']

/-- A system state reached by snapshotting once and then inserting `x`:
a concrete state with a non-empty undo stack. -/
def sAfterEdit : Sys := applyMut (editor_insert_char 'x') (save_state_undo ⟨init_editor, [], []⟩)

/-! ## Helper lemmas -/

theorem getD_set_self {α : Type} (l : List α) (i : Nat) (a d : α) (h : i < l.length) :
    (l.set i a).getD i d = a := by
  induction l generalizing i with
  | nil => simp at h
  | cons b l ih =>
    cases i with
    | zero => rfl
    | succ n => simpa using ih n (by simpa using h)

theorem getD_eraseIdx_lt {α : Type} (l : List α) (i j : Nat) (d : α) (h : j < i) :
    (l.eraseIdx i).getD j d = l.getD j d := by
  induction l generalizing i j with
  | nil => simp [List.eraseIdx]
  | cons b l ih =>
    cases i with
    | zero => omega
    | succ n =>
      cases j with
      | zero => rfl
      | succ m => simpa [List.eraseIdx] using ih n m (by omega)

theorem undo_empty_noop (t : Sys) (ht : t.undo_stack = []) : undo t = t := by
  rcases t with ⟨e, us, rs⟩
  simp only at ht
  subst ht
  rfl

theorem undo_cons (e st : Editor) (rest rs : List Editor) :
    undo ⟨e, st :: rest, rs⟩ =
      ⟨st, rest, if rs.length < UNDO_STACK_SIZE then e :: rs else rs⟩ := rfl

theorem redo_cons (e st : Editor) (us rest : List Editor) :
    redo ⟨e, us, st :: rest⟩ =
      ⟨st, if us.length < UNDO_STACK_SIZE then e :: us else us, rest⟩ := rfl

/-! ## Claims -/

/-- Claim C10: when the prompt for the old text returns the empty string,
`editor_replace_all` returns with every field of the editor state — line
contents (hence line count), cursor position and viewport offsets —
unchanged. -/
theorem claim_C10_cancel_noop (newstr : List Char) (e : Editor) :
    (editor_replace_all [] newstr e).text = e.text ∧
    (editor_replace_all [] newstr e).cursorX = e.cursorX ∧
    (editor_replace_all [] newstr e).cursorY = e.cursorY ∧
    (editor_replace_all [] newstr e).rowOffset = e.rowOffset ∧
    (editor_replace_all [] newstr e).colOffset = e.colOffset := by
  simp [editor_replace_all]

/-- Claim C8 (amended): a redraw pass clears exactly the dirty flags of line
indices inside the visible text area and inside the buffer
(`rowOffset ≤ idx < rowOffset + rows` and `idx < numLines`); the flag of
every other line — in particular of lines outside the viewport — is left
unchanged, not cleared. -/
theorem claim_C8_amended (rowOffset numLines rows : Nat) (d : Nat → Bool) (idx : Nat) :
    refreshPass rowOffset numLines rows d idx =
      if rowOffset ≤ idx ∧ idx < rowOffset + rows ∧ idx < numLines then false
      else d idx := by
  induction rows with
  | zero =>
    simp only [refreshPass]
    split_ifs with h
    · omega
    · rfl
  | succ n ih =>
    simp only [refreshPass, clearRow, ih]
    split_ifs <;> first | rfl | omega

/-- Claim C8 counterexample: with a 10-row text area at viewport origin 0 on a
100-line buffer, line 50 is marked dirty before the pass, lies outside the
viewport, and is still marked after the pass — the claim that every
previously-marked index is cleared is false. -/
theorem claim_C8_counterexample :
    (fun i => i == 50) 50 = true ∧
    refreshPass 0 100 10 (fun i => i == 50) 50 = true := by
  decide

/-- Claim C1 (amended): provided the undo stack is not full when the snapshot
is taken, `undo()` after `save_state_undo(); mutate` restores exactly the
editor state (buffer lines, line count, cursor, viewport) that held before
the mutation; and `undo()` is a no-op whenever the undo stack is empty. -/
theorem claim_C1_amended (s : Sys) (m : Editor → Editor)
    (hfull : s.undo_stack.length < UNDO_STACK_SIZE) :
    (undo (applyMut m (save_state_undo s))).editor = s.editor ∧
    (∀ t : Sys, t.undo_stack = [] → undo t = t) := by
  refine ⟨?_, undo_empty_noop⟩
  have h1 : applyMut m (save_state_undo s) =
      ⟨m s.editor, s.editor :: s.undo_stack, []⟩ := by
    simp [applyMut, save_state_undo, if_pos hfull]
  rw [h1, undo_cons]

/-- Claim C1 counterexample: when the undo stack is already full, the snapshot
push is silently dropped, and `undo()` after the mutation restores the stale
state at the top of the stack (`eEmpty`) instead of the pre-mutation state
(`eX`). -/
theorem claim_C1_counterexample :
    (undo (applyMut (editor_insert_char 'y') (save_state_undo sUndoFull))).editor ≠
      sUndoFull.editor := by
  decide

/-- Claim C1 witness: the amended theorem applied to the concrete one-line
buffer `"abc"` with empty stacks and an insertion of `x`. -/
theorem claim_C1_witness :
    (undo (applyMut (editor_insert_char 'x') (save_state_undo sOneLine))).editor =
      sOneLine.editor ∧
    (∀ t : Sys, t.undo_stack = [] → undo t = t) :=
  claim_C1_amended sOneLine (editor_insert_char 'x') (by decide)

/-- Claim C2 (amended): every destructive key pushes a full snapshot onto the
undo stack before mutating, and a subsequent `undo()` restores the
pre-keystroke editor state — except that kill-line on a buffer with exactly
one line (cursor on line 0) clears the line without a snapshot, and
duplicate-line at the maximum line count does nothing; the undo stack must
also not be full for the push to land. -/
theorem claim_C2_amended (cfg : Config) (k : Key) (s : Sys)
    (hfull : s.undo_stack.length < UNDO_STACK_SIZE)
    (hkill : k = .killKey → ¬(s.editor.text.length = 1 ∧ s.editor.cursorY = 0))
    (hdup : k = .dupKey → s.editor.text.length < MAX_LINES) :
    (process_key cfg k s).undo_stack = s.editor :: s.undo_stack ∧
    (undo (process_key cfg k s)).editor = s.editor := by
  have hsnap : save_state_undo s = ⟨s.editor, s.editor :: s.undo_stack, []⟩ := by
    simp [save_state_undo, if_pos hfull]
  cases k with
  | insertKey c =>
    rw [process_key, hsnap]
    exact ⟨rfl, rfl⟩
  | backspaceKey =>
    rw [process_key, hsnap]
    exact ⟨rfl, rfl⟩
  | deleteKey =>
    rw [process_key, hsnap]
    exact ⟨rfl, rfl⟩
  | newlineKey =>
    rw [process_key, hsnap]
    exact ⟨rfl, rfl⟩
  | tabKey =>
    rw [process_key]
    by_cases hc : cfg.tab_four_spaces <;> simp only [hc, if_true, if_false, Bool.false_eq_true] <;>
      rw [hsnap] <;> exact ⟨rfl, rfl⟩
  | killKey =>
    have h := hkill rfl
    rw [process_key, editor_kill_line]
    simp only [if_neg h]
    rw [hsnap]
    exact ⟨rfl, rfl⟩
  | dupKey =>
    have h : ¬(s.editor.text.length ≥ MAX_LINES) := by
      have := hdup rfl
      omega
    rw [process_key, editor_duplicate_line]
    simp only [if_neg h]
    rw [hsnap]
    exact ⟨rfl, rfl⟩

/-- Claim C2 counterexample: kill-line on the one-line buffer `"abc"` pushes
nothing onto the undo stack, and the subsequent `undo()` fails to restore the
pre-keystroke state — the line stays cleared. -/
theorem claim_C2_counterexample :
    (process_key ⟨true, true⟩ .killKey sOneLine).undo_stack = [] ∧
    (undo (process_key ⟨true, true⟩ .killKey sOneLine)).editor ≠ sOneLine.editor := by
  decide

/-- Claim C2 witness: the amended theorem at the backspace key on the concrete
one-line buffer `"abc"`. -/
theorem claim_C2_witness :
    (process_key ⟨true, true⟩ .backspaceKey sOneLine).undo_stack =
      sOneLine.editor :: sOneLine.undo_stack ∧
    (undo (process_key ⟨true, true⟩ .backspaceKey sOneLine)).editor = sOneLine.editor :=
  claim_C2_amended ⟨true, true⟩ .backspaceKey sOneLine (by decide) (by decide) (by decide)

/-- Claim C3: the backspace line-merge at column 0.  The example scenario
holds (`["abc", "def"]` with cursor `(1, 0)` becomes `["abcdef"]` with cursor
`(0, 3)`), but the merge does NOT truncate: on a previous line already at the
maximum `MAX_COLS - 1` characters, the merged line produced by the unchecked
`strcat` has `MAX_COLS` characters, exceeding the maximum line length (in the
C build this writes past the end of the fixed-size row). -/
theorem claim_C3_merge_no_truncation :
    editor_delete_char ⟨[['a', 'b', 'c'], ['d', 'e', 'f']], 0, 1, 0, 0⟩ =
      ⟨[['a', 'b', 'c', 'd', 'e', 'f']], 3, 0, 0, 0⟩ ∧
    (editor_delete_char eMergeFull).curLine =
      List.replicate (MAX_COLS - 1) 'a' ++ ['b'] ∧
    MAX_COLS - 1 < (editor_delete_char eMergeFull).curLine.length := by
  have h0 : eMergeFull = ⟨[List.replicate (MAX_COLS - 1) 'a', ['b']], 0, 1, 0, 0⟩ := rfl
  have heq : editor_delete_char eMergeFull =
      ⟨[List.replicate (MAX_COLS - 1) 'a' ++ ['b']], MAX_COLS - 1, 0, 0, 0⟩ := by
    rw [h0]
    generalize hr : List.replicate (MAX_COLS - 1) 'a' = r
    have hlen : r.length = MAX_COLS - 1 := by rw [← hr]; exact List.length_replicate _ _
    simp [editor_delete_char, Editor.curLine, Editor.line, List.eraseIdx, hlen]
  refine ⟨by decide, ?_, ?_⟩
  · rw [heq]
    rfl
  · rw [heq]
    generalize hr : List.replicate (MAX_COLS - 1) 'a' = r
    have hlen : r.length = MAX_COLS - 1 := by rw [← hr]; exact List.length_replicate _ _
    simp [Editor.curLine, Editor.line, hlen, MAX_COLS]

theorem wf_insert (c : Char) (e : Editor) (h : e.wf) : (editor_insert_char c e).wf := by
  obtain ⟨h1, h2, h3⟩ := h
  simp only [editor_insert_char]
  split_ifs with hlen
  · exact ⟨h1, h2, h3⟩
  · refine ⟨?_, ?_, ?_⟩
    · simpa using h1
    · simpa using h2
    · simp only [Editor.curLine, Editor.line]
      rw [getD_set_self _ _ _ _ h2]
      simp only [Editor.curLine, Editor.line] at h3
      simp only [List.length_append, List.length_take, List.length_drop, List.length_cons,
        List.length_nil]
      omega

theorem wf_backspace (e : Editor) (h : e.wf) : (editor_delete_char e).wf := by
  obtain ⟨h1, h2, h3⟩ := h
  simp only [editor_delete_char]
  split_ifs with hx hy
  · exact ⟨h1, h2, h3⟩
  · -- merge with previous line
    have hy1 : 1 ≤ e.cursorY := Nat.one_le_iff_ne_zero.mpr hy
    have hset : (e.text.set (e.cursorY - 1) (e.line (e.cursorY - 1) ++ e.curLine)).length =
        e.text.length := List.length_set _ _ _
    have herase : ((e.text.set (e.cursorY - 1) (e.line (e.cursorY - 1) ++ e.curLine)).eraseIdx
        e.cursorY).length + 1 = e.text.length := by
      rw [List.length_eraseIdx_add_one (by rw [hset]; exact h2)]
      exact hset
    refine ⟨?_, ?_, ?_⟩
    · show 1 ≤ ((e.text.set _ _).eraseIdx e.cursorY).length
      omega
    · show e.cursorY - 1 < ((e.text.set _ _).eraseIdx e.cursorY).length
      omega
    · simp only [Editor.curLine, Editor.line]
      rw [getD_eraseIdx_lt _ _ _ _ (by omega)]
      rw [getD_set_self _ _ _ _ (by omega)]
      simp [Editor.line]
  · -- in-line deletion
    refine ⟨?_, ?_, ?_⟩
    · simpa using h1
    · simpa using h2
    · simp only [Editor.curLine, Editor.line]
      rw [getD_set_self _ _ _ _ h2]
      simp only [Editor.curLine, Editor.line] at h3
      simp only [List.length_append, List.length_take, List.length_drop]
      omega

theorem wf_delete_at (e : Editor) (h : e.wf) : (editor_delete_at_cursor e).wf := by
  obtain ⟨h1, h2, h3⟩ := h
  simp only [editor_delete_at_cursor]
  split_ifs with hx hy
  · exact ⟨h1, h2, h3⟩
  · -- join with next line
    have hylt : e.cursorY + 1 < e.text.length := by omega
    have hset : (e.text.set e.cursorY (e.curLine ++ e.line (e.cursorY + 1))).length =
        e.text.length := List.length_set _ _ _
    have herase : ((e.text.set e.cursorY (e.curLine ++ e.line (e.cursorY + 1))).eraseIdx
        (e.cursorY + 1)).length + 1 = e.text.length := by
      rw [List.length_eraseIdx_add_one (by rw [hset]; exact hylt)]
      exact hset
    refine ⟨?_, ?_, ?_⟩
    · show 1 ≤ ((e.text.set _ _).eraseIdx (e.cursorY + 1)).length
      omega
    · show e.cursorY < ((e.text.set _ _).eraseIdx (e.cursorY + 1)).length
      omega
    · simp only [Editor.curLine, Editor.line]
      rw [getD_eraseIdx_lt _ _ _ _ (by omega)]
      rw [getD_set_self _ _ _ _ h2]
      simp only [Editor.curLine, Editor.line] at hx h3
      simp only [List.length_append]
      omega
  · -- in-line deletion at the cursor
    refine ⟨?_, ?_, ?_⟩
    · simpa using h1
    · simpa using h2
    · simp only [Editor.curLine, Editor.line]
      rw [getD_set_self _ _ _ _ h2]
      simp only [Editor.curLine, Editor.line] at hx h3
      simp only [List.length_append, List.length_take, List.length_drop]
      have hlt : e.cursorX < (e.text.getD e.cursorY []).length := Nat.lt_of_le_of_ne h3 hx
      omega

theorem wf_applyEdit (op : EditOp) (e : Editor) (h : e.wf) : (applyEdit op e).wf := by
  cases op with
  | insertOp c => exact wf_insert c e h
  | backspaceOp => exact wf_backspace e h
  | deleteOp => exact wf_delete_at e h

/-- Claim C4: after any sequence of insert-character and delete operations
from the initial editor state, the invariant `cursor.line < line_count`,
`cursor.column ≤ length(current_line)` and `line_count ≥ 1` holds (lower
bounds are inherent to the `Nat` representation; applying this theorem to
every prefix of a sequence gives the invariant after each operation). -/
theorem claim_C4_cursor_invariant (ops : List EditOp) : (runEdits ops init_editor).wf := by
  suffices h : ∀ e : Editor, e.wf → (runEdits ops e).wf by
    refine h init_editor ?_
    refine ⟨by decide, by decide, by decide⟩
  induction ops with
  | nil => intro e he; exact he
  | cons op ops ih =>
    intro e he
    exact ih _ (wf_applyEdit op e he)

theorem hist_inv {s : Sys} (h : Reachable s) :
    s.undo_stack.length + s.redo_stack.length ≤ UNDO_STACK_SIZE := by
  induction h with
  | start e => simp [UNDO_STACK_SIZE]
  | mutate m _ ih => simpa [applyMut] using ih
  | snap _ ih =>
    simp only [save_state_undo, List.length_nil]
    split_ifs with hc
    · simp only [List.length_cons]
      omega
    · omega
  | undoStep hr ih =>
    rename_i t
    rcases t with ⟨e, us, rs⟩
    rcases us with _ | ⟨st, rest⟩
    · exact ih
    · rw [undo_cons]
      simp only [List.length_cons] at ih
      split_ifs with hc
      · simp only [List.length_cons]
        omega
      · simp only
        omega
  | redoStep hr ih =>
    rename_i t
    rcases t with ⟨e, us, rs⟩
    rcases rs with _ | ⟨st, rest⟩
    · exact ih
    · rw [redo_cons]
      simp only [List.length_cons] at ih
      split_ifs with hc
      · simp only [List.length_cons]
        omega
      · simp only
        omega

/-- Claim C9: in every state reachable from empty stacks under snapshot, undo
and redo (with arbitrary editor mutations in between), the undo-stack depth
plus the redo-stack depth never exceeds the capacity `UNDO_STACK_SIZE`;
consequently whenever `undo()` (resp. `redo()`) has an entry to pop, the
receiving stack has room, so its capacity guard never drops a state. -/
theorem claim_C9_stack_sum (s : Sys) (h : Reachable s) :
    s.undo_stack.length + s.redo_stack.length ≤ UNDO_STACK_SIZE ∧
    (s.undo_stack ≠ [] → s.redo_stack.length < UNDO_STACK_SIZE) ∧
    (s.redo_stack ≠ [] → s.undo_stack.length < UNDO_STACK_SIZE) := by
  have hi := hist_inv h
  refine ⟨hi, fun hne => ?_, fun hne => ?_⟩
  · have := List.length_pos.mpr hne
    omega
  · have := List.length_pos.mpr hne
    omega

/-- Claim C9 witness: the stack-sum bound at the concrete reachable state
obtained by one snapshot followed by an insertion. -/
theorem claim_C9_witness :
    sAfterEdit.undo_stack.length + sAfterEdit.redo_stack.length ≤ UNDO_STACK_SIZE ∧
    (sAfterEdit.undo_stack ≠ [] → sAfterEdit.redo_stack.length < UNDO_STACK_SIZE) ∧
    (sAfterEdit.redo_stack ≠ [] → sAfterEdit.undo_stack.length < UNDO_STACK_SIZE) :=
  claim_C9_stack_sum sAfterEdit
    (Reachable.mutate (editor_insert_char 'x') (Reachable.snap (Reachable.start init_editor)))

/-- Claim C5: in every reachable state with a non-empty undo stack, `redo()`
after `undo()` restores exactly the full state (editor and both stacks) that
existed immediately before the `undo()`; `undo()` does not clear the redo
stack but pushes the current editor state onto it; and after a
`save_state_undo()`-preceded mutation the redo stack is empty, so `redo()` is
a no-op. -/
theorem claim_C5_redo_after_undo (s : Sys) (hr : Reachable s) (hu : s.undo_stack ≠ []) :
    redo (undo s) = s ∧
    (undo s).redo_stack = s.editor :: s.redo_stack ∧
    (∀ m : Editor → Editor,
      (applyMut m (save_state_undo (undo s))).redo_stack = [] ∧
      redo (applyMut m (save_state_undo (undo s))) = applyMut m (save_state_undo (undo s))) := by
  have hi := hist_inv hr
  rcases s with ⟨e, us, rs⟩
  rcases us with _ | ⟨st, rest⟩
  · simp at hu
  · simp only [List.length_cons] at hi
    have hrs : rs.length < UNDO_STACK_SIZE := by omega
    have hrest : rest.length < UNDO_STACK_SIZE := by omega
    rw [undo_cons, if_pos hrs]
    refine ⟨?_, rfl, fun m => ⟨rfl, rfl⟩⟩
    rw [redo_cons, if_pos hrest]

/-- Claim C5 witness: the theorem at the concrete reachable state obtained by
one snapshot followed by an insertion. -/
theorem claim_C5_witness :
    redo (undo sAfterEdit) = sAfterEdit ∧
    (undo sAfterEdit).redo_stack = sAfterEdit.editor :: sAfterEdit.redo_stack ∧
    (∀ m : Editor → Editor,
      (applyMut m (save_state_undo (undo sAfterEdit))).redo_stack = [] ∧
      redo (applyMut m (save_state_undo (undo sAfterEdit))) =
        applyMut m (save_state_undo (undo sAfterEdit))) :=
  claim_C5_redo_after_undo sAfterEdit
    (Reachable.mutate (editor_insert_char 'x') (Reachable.snap (Reachable.start init_editor)))
    (by decide)

/-- Claim C6: a rule token matches at a position only when the character
immediately before the match (if any) and the character immediately after the
match (if any) are not alphanumeric and not underscore; and on the line
`"printing int x"` the token `"int"` matches exactly at position 9 (the
standalone word), never inside `"printing"`. -/
theorem claim_C6_token_boundary :
    (∀ (l tok : List Char) (j : Nat), tokenMatchAt l tok j = true →
      (j = 0 ∨ ((l.getD (j - 1) ' ').isAlphanum = false ∧ l.getD (j - 1) ' ' ≠ '_')) ∧
      (j + tok.length = l.length ∨
        ((l.getD (j + tok.length) ' ').isAlphanum = false ∧
          l.getD (j + tok.length) ' ' ≠ '_'))) ∧
    (∀ j : Nat, tokenMatchAt "printing int x".toList "int".toList j = true ↔ j = 9) := by
  constructor
  · intro l tok j h
    simp only [tokenMatchAt, Bool.and_eq_true, decide_eq_true_eq] at h
    obtain ⟨⟨⟨⟨htok, hle⟩, hcmp⟩, hleft⟩, hright⟩ := h
    constructor
    · by_cases hj : j = 0
      · exact Or.inl hj
      · right
        rw [is_left_boundary, if_neg hj] at hleft
        simpa [is_word_char] using hleft
    · by_cases hj : j + tok.length = l.length
      · exact Or.inl hj
      · right
        rw [is_right_boundary, if_neg (by omega)] at hright
        simpa [is_word_char] using hright
  · intro j
    constructor
    · intro h
      have h14 : ("printing int x".toList).length = 14 := by decide
      have h3 : ("int".toList).length = 3 := by decide
      have hle : j + ("int".toList).length ≤ ("printing int x".toList).length := by
        simp only [tokenMatchAt, Bool.and_eq_true, decide_eq_true_eq] at h
        exact h.1.1.1.2
      rw [h14, h3] at hle
      have hj : j ≤ 11 := by omega
      clear h14 h3 hle
      revert h
      interval_cases j <;> decide
    · rintro rfl
      decide

/-- Claim C6 witness: the characterization applied at the matching position 9
of the scenario line. -/
theorem claim_C6_witness :
    tokenMatchAt "printing int x".toList "int".toList 9 = true :=
  (claim_C6_token_boundary.2 9).mpr rfl

theorem readChunk_nil (fuel : Nat) : readChunk fuel [] = ([], []) := by
  cases fuel <;> rfl

theorem readChunk_newline (l : List Char) (rest : List Char) (fuel : Nat)
    (hl : '\n' ∉ l) (hfuel : l.length < fuel) :
    readChunk fuel (l ++ '\n' :: rest) = (l ++ ['\n'], rest) := by
  induction l generalizing fuel with
  | nil =>
    cases fuel with
    | zero => omega
    | succ n => simp [readChunk]
  | cons c l ih =>
    cases fuel with
    | zero => simp at hfuel
    | succ n =>
      have hc : ¬(c = '\n') := fun hh => hl (by rw [hh]; exact List.mem_cons_self _ _)
      have hmem : '\n' ∉ l := fun hm => hl (List.mem_cons_of_mem c hm)
      have hn : l.length < n := by simp at hfuel; omega
      simp only [List.cons_append, readChunk, if_neg hc]
      simp only [List.append_eq]
      rw [ih n hmem hn]

theorem readChunk_all (l : List Char) (fuel : Nat) (hl : '\n' ∉ l) (hfuel : l.length ≤ fuel) :
    readChunk fuel l = (l, []) := by
  induction l generalizing fuel with
  | nil => exact readChunk_nil fuel
  | cons c l ih =>
    cases fuel with
    | zero => simp at hfuel
    | succ n =>
      have hc : ¬(c = '\n') := fun hh => hl (by rw [hh]; exact List.mem_cons_self _ _)
      have hmem : '\n' ∉ l := fun hm => hl (List.mem_cons_of_mem c hm)
      have hn : l.length ≤ n := by simp at hfuel; omega
      simp only [readChunk, if_neg hc]
      rw [ih n hmem hn]

theorem readChunk_exact (l rest : List Char) (hl : '\n' ∉ l) :
    readChunk l.length (l ++ rest) = (l, rest) := by
  induction l with
  | nil =>
    cases rest with
    | nil => rfl
    | cons c cs => rfl
  | cons c l ih =>
    have hc : ¬(c = '\n') := fun hh => hl (by rw [hh]; exact List.mem_cons_self _ _)
    have hmem : '\n' ∉ l := fun hm => hl (List.mem_cons_of_mem c hm)
    simp only [List.length_cons, List.cons_append, readChunk, if_neg hc]
    simp only [List.append_eq]
    rw [ih hmem]

theorem stripTrailNl_concat (l : List Char) (h : l.length ≤ MAX_COLS - 1) :
    stripTrailNl (l ++ ['\n']) = l := by
  rw [stripTrailNl, List.getLast?_concat, if_pos rfl, List.dropLast_concat,
    List.take_of_length_le h]

theorem stripTrailNl_no_newline (l : List Char) (hl : '\n' ∉ l) (h : l.length ≤ MAX_COLS - 1) :
    stripTrailNl l = l := by
  have hne : ¬(l.getLast? = some '\n') := by
    intro hc
    exact hl (List.mem_of_mem_getLast? (Option.mem_def.mpr hc))
  rw [stripTrailNl, if_neg hne, List.take_of_length_le h]

theorem loadLines_nil (fuel : Nat) : loadLines fuel [] = [] := by
  cases fuel <;> rfl

theorem loadLines_succ (fuel : Nat) (cs : List Char) :
    loadLines (fuel + 1) cs =
      if cs = [] then []
      else stripTrailNl (readChunk (MAX_COLS - 1) cs).1 ::
        loadLines fuel (readChunk (MAX_COLS - 1) cs).2 := rfl

theorem saveContent_cons (l : List Char) (ls : List (List Char)) :
    saveContent (l :: ls) = l ++ '\n' :: saveContent ls := rfl

theorem saveContent_ne_nil (l : List Char) (ls : List (List Char)) :
    saveContent (l :: ls) ≠ [] := by
  rw [saveContent_cons]
  cases l <;> simp

theorem loadLines_saveContent (ls : List (List Char)) (fuel : Nat)
    (hl : ∀ l ∈ ls, '\n' ∉ l ∧ l.length ≤ MAX_COLS - 2)
    (hcount : ls.length ≤ fuel) :
    loadLines fuel (saveContent ls) = ls := by
  induction ls generalizing fuel with
  | nil => exact loadLines_nil fuel
  | cons l ls ih =>
    cases fuel with
    | zero => simp at hcount
    | succ n =>
      obtain ⟨hnl, hlen⟩ := hl l (List.mem_cons_self l ls)
      have hrest : ∀ x ∈ ls, '\n' ∉ x ∧ x.length ≤ MAX_COLS - 2 :=
        fun x hx => hl x (List.mem_cons_of_mem l hx)
      have hlt : l.length < MAX_COLS - 1 := by
        simp only [MAX_COLS] at hlen ⊢
        omega
      rw [saveContent_cons, loadLines_succ, if_neg (by cases l <;> simp)]
      rw [readChunk_newline l (saveContent ls) (MAX_COLS - 1) hnl hlt]
      rw [stripTrailNl_concat l (by omega)]
      rw [ih n hrest (by simp at hcount; omega)]

theorem loadLines_joinNoTerm (ls : List (List Char)) (fuel : Nat)
    (hl : ∀ l ∈ ls, '\n' ∉ l ∧ l.length ≤ MAX_COLS - 2)
    (hcount : ls.length ≤ fuel)
    (hlast : ls.getLast? ≠ some []) :
    loadLines fuel (joinNoTerm ls) = ls := by
  induction ls generalizing fuel with
  | nil => exact loadLines_nil fuel
  | cons l ls ih =>
    cases ls with
    | nil =>
      cases fuel with
      | zero => simp at hcount
      | succ n =>
        obtain ⟨hnl, hlen⟩ := hl l (List.mem_cons_self l [])
        have hlne : ¬(l = []) := by
          intro hh
          apply hlast
          rw [hh]
          rfl
        show loadLines (n + 1) l = [l]
        rw [loadLines_succ, if_neg hlne]
        rw [readChunk_all l (MAX_COLS - 1) hnl (by simp only [MAX_COLS] at hlen ⊢; omega)]
        rw [stripTrailNl_no_newline l hnl (by simp only [MAX_COLS] at hlen ⊢; omega)]
        rw [loadLines_nil]
    | cons l2 ls2 =>
      cases fuel with
      | zero => simp at hcount
      | succ n =>
        obtain ⟨hnl, hlen⟩ := hl l (List.mem_cons_self l (l2 :: ls2))
        have hrest : ∀ x ∈ l2 :: ls2, '\n' ∉ x ∧ x.length ≤ MAX_COLS - 2 :=
          fun x hx => hl x (List.mem_cons_of_mem l hx)
        have hlt : l.length < MAX_COLS - 1 := by
          simp only [MAX_COLS] at hlen ⊢
          omega
        show loadLines (n + 1) (l ++ '\n' :: joinNoTerm (l2 :: ls2)) = l :: l2 :: ls2
        rw [loadLines_succ, if_neg (by cases l <;> simp)]
        rw [readChunk_newline l (joinNoTerm (l2 :: ls2)) (MAX_COLS - 1) hnl hlt]
        rw [stripTrailNl_concat l (by omega)]
        rw [ih n hrest (by simp at hcount ⊢; omega)
          (by rwa [List.getLast?_cons_cons] at hlast)]

theorem saveContent_eq_joinNoTerm (ls : List (List Char)) (h : ls ≠ []) :
    saveContent ls = joinNoTerm ls ++ ['\n'] := by
  induction ls with
  | nil => simp at h
  | cons l ls ih =>
    cases ls with
    | nil => rfl
    | cons l2 ls2 =>
      rw [saveContent_cons, ih (by simp)]
      show l ++ '\n' :: (joinNoTerm (l2 :: ls2) ++ ['\n']) =
        (l ++ '\n' :: joinNoTerm (l2 :: ls2)) ++ ['\n']
      simp

/-- Claim C7 (amended): loading a non-empty file of at most `MAX_LINES` lines
whose lines each have at most `MAX_COLS - 2` characters (so that a line and
its newline fit in one `fgets` read of the `MAX_COLS`-byte buffer), making no
edits, and saving reproduces the original content byte-for-byte, with a final
newline appended when the original did not end in one (the saved file is
newline-terminated text, one buffer line per record). -/
theorem claim_C7_amended (ls : List (List Char)) (term : Bool)
    (hne : ls ≠ [])
    (hl : ∀ l ∈ ls, '\n' ∉ l ∧ l.length ≤ MAX_COLS - 2)
    (hcount : ls.length ≤ MAX_LINES)
    (hlast : term = false → ls.getLast? ≠ some []) :
    editorRoundTrip (joinLines ls term) =
      joinLines ls term ++ (if term then [] else ['\n']) := by
  cases term with
  | true =>
    have hload : loadLines MAX_LINES (saveContent ls) = ls :=
      loadLines_saveContent ls MAX_LINES hl hcount
    show saveContent (loadFileLines (saveContent ls)) = saveContent ls ++ []
    rw [loadFileLines, hload, if_neg hne, List.append_nil]
  | false =>
    have hload : loadLines MAX_LINES (joinNoTerm ls) = ls :=
      loadLines_joinNoTerm ls MAX_LINES hl hcount (hlast rfl)
    show saveContent (loadFileLines (joinNoTerm ls)) = joinNoTerm ls ++ ['\n']
    rw [loadFileLines, hload, if_neg hne, saveContent_eq_joinNoTerm ls hne]

/-- Claim C7 counterexample: the newline-terminated file whose single line has
exactly the editor's maximum line length `MAX_COLS - 1` (1023 characters) is
split by the `fgets` chunking into two buffer lines on load, so saving appends
a spurious empty line: the round trip is not the identity on this
newline-terminated file, beyond any trailing-newline normalization. -/
theorem claim_C7_counterexample :
    editorRoundTrip fullLineFile = List.replicate (MAX_COLS - 1) 'a' ++ ['\n', '\n'] ∧
    editorRoundTrip fullLineFile ≠ fullLineFile := by
  have hnl : '\n' ∉ List.replicate (MAX_COLS - 1) 'a' := by
    intro h
    have := List.eq_of_mem_replicate h
    simp at this
  have hchunk : readChunk (MAX_COLS - 1) fullLineFile =
      (List.replicate (MAX_COLS - 1) 'a', ['\n']) := by
    have h := readChunk_exact (List.replicate (MAX_COLS - 1) 'a') ['\n'] hnl
    rwa [List.length_replicate] at h
  have hfne : ¬(fullLineFile = []) := by
    rw [fullLineFile]
    cases h : List.replicate (MAX_COLS - 1) 'a' <;> simp
  have hM : MAX_LINES = 999 + 1 := rfl
  have hload : loadLines MAX_LINES fullLineFile = [List.replicate (MAX_COLS - 1) 'a', []] := by
    rw [hM, loadLines_succ, if_neg hfne, hchunk]
    rw [stripTrailNl_no_newline _ hnl (by rw [List.length_replicate])]
    have h999 : (999 : Nat) = 998 + 1 := rfl
    rw [h999, loadLines_succ, if_neg (by simp)]
    have hc2 : readChunk (MAX_COLS - 1) ['\n'] = (['\n'], []) := by decide
    rw [hc2]
    rw [loadLines_nil]
    rfl
  have heq : editorRoundTrip fullLineFile =
      List.replicate (MAX_COLS - 1) 'a' ++ ['\n', '\n'] := by
    show saveContent (loadFileLines fullLineFile) = _
    rw [loadFileLines, hload, if_neg (by simp)]
    show List.replicate (MAX_COLS - 1) 'a' ++ '\n' :: ([] ++ '\n' :: []) = _
    simp
  refine ⟨heq, ?_⟩
  rw [heq, fullLineFile]
  intro hcontra
  have hlenc := congrArg List.length hcontra
  simp at hlenc

/-- Claim C7 witness: the amended round trip at the one-line file `"abc"`
without a trailing newline: saving appends exactly the missing newline. -/
theorem claim_C7_witness :
    editorRoundTrip (joinLines [['a', 'b', 'c']] false) =
      joinLines [['a', 'b', 'c']] false ++ (if false then [] else ['\n']) :=
  claim_C7_amended [['a', 'b', 'c']] false (by decide) (by decide) (by decide) (by decide)

end Ced
